import Mathlib

/-!
# lwlog: call-site resolution and line formatting

A shallow embedding of `util.go` (`IsLoggingFunction`) and `std.go` (`Std`, `Debugf`, `Infof`,
`Errorf`, `logLine`, `lookupFunc`) of `github.com/lwithers/lwlog`.

Modelling conventions.

* Go `string` values are Lean `String`s. Every separator, suffix and newline the code tests for is
  ASCII, so the byte-level tests of the Go code coincide with the character-level tests used here.
* A `*runtime.Func` is an `Option runtime.Func`; `none` is the nil pointer. Methods that
  dereference their receiver return `Except GoPanic`.
* Go maps keyed by `uintptr` are finite association lists (`GoMap`).
* The read/write locks only serialise map accesses; the model is the sequential behaviour of one
  call at a time.
* The results of the library calls made during one log call (the formatted timestamp, the frames
  delivered by `runtime.CallersFrames`, the expansion of the user format) are inputs (`Call`).
* `path/filepath` is the Unix flavour (separator `/`, no volume names).
-/

namespace Lwlog

/-- Run-time panics that the modelled code can raise. -/
inductive GoPanic where
  | nilDereference
  | indexOutOfRange
deriving DecidableEq, Repr

deriving instance DecidableEq for Except

/-! ## Go maps keyed by `uintptr` -/

/-- Finite map with `uintptr` keys: at most one entry per key. -/
structure GoMap (V : Type) where
  entries : List (Nat × V)
deriving DecidableEq, Repr

namespace GoMap

/-- Result of `make(map[uintptr]V)`. -/
def empty {V : Type} : GoMap V := ⟨[]⟩

/-- Result of `v, ok := m[k]`, with `none` for `ok == false`. -/
def get {V : Type} (m : GoMap V) (k : Nat) : Option V :=
  List.lookup k m.entries

/-- Result of `m[k] = v`: the entry for `k` is replaced or added. -/
def set {V : Type} (m : GoMap V) (k : Nat) (v : V) : GoMap V :=
  ⟨(k, v) :: m.entries.filter (fun p => p.1 != k)⟩

end GoMap

/-! ## Go standard library: `strings` -/

namespace strings

/-- Go: `len(s) >= len(suffix) && s[len(s)-len(suffix):] == suffix`. -/
def HasSuffix (s suffix : String) : Bool :=
  decide (suffix.length ≤ s.length) && (s.data.drop (s.length - suffix.length) == suffix.data)

/-- Go: `strings.Join(elems, sep)`. -/
def Join : List String → String → String
  | [], _ => ""
  | [e], _ => e
  | e :: f :: rest, sep => e ++ sep ++ Join (f :: rest) sep

end strings

/-! ## Go standard library: `path/filepath` (Unix) -/

namespace filepath

/-- Go: `os.IsPathSeparator` on Unix. -/
def IsPathSeparator (c : Char) : Bool := c == '/'

/-- The test `r == n || os.IsPathSeparator(path[r])` on the unread rest `path[r:]`. -/
def endOrSeparator : List Char → Bool
  | [] => true
  | c :: _ => IsPathSeparator c

/-- The backtracking of `Clean` at a `..` element, after the first `out.w--`:
`for out.w > dotdot && !os.IsPathSeparator(out.index(out.w)) { out.w-- }`, as the final `out.w`
for a start value. -/
def backtrack (buf : List Char) (dotdot : Nat) : Nat → Nat
  | 0 => 0
  | w + 1 =>
    if dotdot < w + 1 && !(buf[w + 1]? == some '/') then backtrack buf dotdot w else w + 1

/-- The main loop `for r < n` of `Clean`. The arguments are the rest `path[r:]` still to read, the
bytes `out` written so far (`out.w` is its length) and `dotdot`. Every iteration reads at least
one byte, so `fuel` equal to the length of the rest is enough. -/
def cleanLoop (rooted : Bool) : Nat → List Char → List Char → Nat → List Char
  | 0, _, out, _ => out
  | _ + 1, [], out, _ => out
  | fuel + 1, c :: rest, out, dotdot =>
    if IsPathSeparator c then
      -- empty path element
      cleanLoop rooted fuel rest out dotdot
    else if c == '.' && endOrSeparator rest then
      -- . element
      cleanLoop rooted fuel rest out dotdot
    else if c == '.' && rest.head? == some '.' && endOrSeparator rest.tail then
      -- .. element: remove to last separator
      if dotdot < out.length then
        cleanLoop rooted fuel rest.tail (out.take (backtrack out dotdot (out.length - 1))) dotdot
      else if !rooted then
        let out1 := if 0 < out.length then out ++ ['/'] else out
        let out2 := out1 ++ ['.', '.']
        cleanLoop rooted fuel rest.tail out2 out2.length
      else
        cleanLoop rooted fuel rest.tail out dotdot
    else
      -- real path element: add slash if needed, copy element
      let out1 :=
        if (rooted && out.length != 1) || (!rooted && out.length != 0) then out ++ ['/'] else out
      cleanLoop rooted fuel ((c :: rest).dropWhile (fun x => !IsPathSeparator x))
        (out1 ++ (c :: rest).takeWhile (fun x => !IsPathSeparator x)) dotdot

/-- Go: `filepath.Clean` (no volume name; `FromSlash` is the identity). -/
def Clean (path : String) : String :=
  match path.data with
  | [] => "."
  | c :: rest =>
    let rooted := IsPathSeparator c
    let out :=
      if rooted then cleanLoop rooted rest.length rest ['/'] 1
      else cleanLoop rooted (c :: rest).length (c :: rest) [] 0
    if out.length = 0 then "." else ⟨out⟩

/-- Go: `filepath.Base`. -/
def Base (path : String) : String :=
  if path = "" then "."
  else
    -- strip trailing slashes
    let p := path.data.rdropWhile IsPathSeparator
    -- find the last element
    let p := p.rtakeWhile (fun c => !IsPathSeparator c)
    -- if empty now, it had only slashes
    if p = [] then "/" else ⟨p⟩

/-- Go: `filepath.Dir`: `Clean` of the path up to and including its last separator. -/
def Dir (path : String) : String :=
  Clean ⟨path.data.rdropWhile (fun c => !IsPathSeparator c)⟩

/-- Go: `filepath.Join`: the elements from the first non-empty one on, joined by the separator
and cleaned. -/
def Join : List String → String
  | [] => ""
  | e :: rest => if e ≠ "" then Clean (strings.Join (e :: rest) "/") else Join rest

end filepath

/-! ## Go standard library: `runtime` -/

namespace runtime

/-- A compiled function as seen through `*runtime.Func`: its entry address, its qualified name
and the source position `FileLine` reports for the entry address. -/
structure Func where
  entry : Nat
  name : String
  file : String
  line : Nat
deriving DecidableEq, Repr

/-- Method `(*Func).Entry`: reads the function record, so a nil receiver panics. -/
def Func.Entry : Option Func → Except GoPanic Nat
  | none => .error .nilDereference
  | some f => .ok f.entry

/-- Method `(*Func).Name`: the empty string for a nil receiver. -/
def Func.Name : Option Func → String
  | none => ""
  | some f => f.name

/-- Method `(*Func).FileLine`: reads the function record, so a nil receiver panics. The code only
asks for the position of the entry address. -/
def Func.FileLine : Option Func → Nat → Except GoPanic (String × Nat)
  | none, _ => .error .nilDereference
  | some f, _ => .ok (f.file, f.line)

/-- The fields of `runtime.Frame` read by the logger. `Func` is nil for frames without a
function record (inlined callers, non-Go code) and in the zero `Frame`. -/
structure Frame where
  Func : Option Func
  Line : Nat
deriving DecidableEq, Repr

/-- The zero value `Frame{}`. -/
def Frame.zero : Frame := ⟨none, 0⟩

/-- Method `(*Frames).Next` on an iterator holding the frames still to be delivered: the next
frame, whether more frames follow it, and the iterator afterwards. An exhausted iterator
delivers the zero frame. -/
def Frames.Next : List Frame → (Frame × Bool) × List Frame
  | [] => ((Frame.zero, false), [])
  | f :: rest => ((f, !rest.isEmpty), rest)

end runtime

open runtime

/-! ## util.go -/

/-- The package variable `loggingFunctions`: `none` is the nil map. -/
abbrev LoggingFunctions := Option (GoMap Bool)

/-- The suffix test of `IsLoggingFunction` on a function name. -/
def isLoggerName (fn : String) : Bool :=
  strings.HasSuffix fn ".Debugf" ||
    strings.HasSuffix fn ".Infof" ||
    strings.HasSuffix fn ".Logf"

/-- Embedding of `IsLoggingFunction`: returns the package variable afterwards and the result. -/
def IsLoggingFunction (loggingFunctions : LoggingFunctions) (f : Option Func) :
    Except GoPanic (LoggingFunctions × Bool) := do
  let pc ← Func.Entry f
  let cached : Option Bool :=
    match loggingFunctions with
    | some m => m.get pc
    | none => none
  match cached with
  | some isLogger => pure (loggingFunctions, isLogger)
  | none =>
    let fn := Func.Name f
    let isLogger := isLoggerName fn
    let m : GoMap Bool :=
      match loggingFunctions with
      | none => GoMap.empty
      | some m => m
    pure (some (m.set pc isLogger), isLogger)

/-- The package variable after classifying the functions `fs` in order, starting from `c`. -/
def classifyAll : LoggingFunctions → List Func → LoggingFunctions
  | c, [] => c
  | c, f :: fs =>
    match IsLoggingFunction c (some f) with
    | .ok (c1, _) => classifyAll c1 fs
    | .error _ => c

/-- Distinct functions have distinct entry addresses: equal entries mean equal names. -/
def EntriesDetermineNames (fs : List Func) : Prop :=
  ∀ g ∈ fs, ∀ h ∈ fs, g.entry = h.entry → g.name = h.name

/-- The name ends with one of the three recognised suffixes (the specification's wording). -/
def EndsWithLoggingSuffix (fn : String) : Prop :=
  ∃ pre : String, fn = pre ++ ".Debugf" ∨ fn = pre ++ ".Infof" ∨ fn = pre ++ ".Logf"

/-! ## std.go -/

/-- Struct `stdLoggerFuncDetails`. -/
structure stdLoggerFuncDetails where
  filename : String
  function : String
deriving DecidableEq, Repr

/-- Struct `Std`. The writers `out` and `err` are identified by numbers; equal numbers are the
same writer. -/
structure Std where
  Debug : Bool
  timeFormat : String
  out : Nat
  err : Nat
  funcs : GoMap stdLoggerFuncDetails
deriving DecidableEq, Repr

/-- State outside the logger: the package variable of `util.go` and the `Write` calls made so
far, each with its writer and the bytes passed. -/
structure World where
  loggingFunctions : LoggingFunctions
  writes : List (Nat × String)
deriving DecidableEq, Repr

/-- Results of the library calls of one log call: `time.Now().Format(l.timeFormat)`, the frames
delivered by `runtime.CallersFrames(pc)` (innermost first, starting at the caller of the entry
point) and the text `fmt.Fprintf(buf, Fmt, args...)` appends. -/
structure Call where
  now : String
  frames : List Frame
  msg : String
deriving DecidableEq, Repr

/-- Embedding of `NewLogger`. -/
def NewLogger (timeFormat : String) (logOut errOut : Nat) : Std :=
  { Debug := false, timeFormat := timeFormat, out := logOut, err := errOut, funcs := GoMap.empty }

/-- Embedding of `(*Std).lookupFunc`: the logger afterwards and `(filename, function)`. -/
def Std.lookupFunc (l : Std) (f : Option Func) : Except GoPanic (Std × String × String) := do
  let pc ← Func.Entry f
  match l.funcs.get pc with
  | some details => pure (l, details.filename, details.function)
  | none =>
    let (file, _) ← Func.FileLine f pc
    let funcname := Func.Name f
    let details : stdLoggerFuncDetails :=
      { filename := filepath.Base file
        function := filepath.Join [filepath.Base (filepath.Dir funcname), filepath.Base funcname] }
    pure ({ l with funcs := l.funcs.set pc details }, details.filename, details.function)

/-- The loop `for moreFrames && IsLoggingFunction(frame.Func) { frame, moreFrames = frames.Next() }`
of `logLine`, from the current `frame`, `moreFrames` and the frames still in the iterator. The
two cases on the iterator are those of `Frames.Next`. -/
def selectFrame :
    LoggingFunctions → Frame → Bool → List Frame → Except GoPanic (LoggingFunctions × Frame)
  | c, frame, false, _ => pure (c, frame)
  | c, frame, true, rest => do
    let (c1, isLogger) ← IsLoggingFunction c frame.Func
    if isLogger then
      match rest with
      | [] => pure (c1, Frame.zero)
      | f :: rest1 => selectFrame c1 f (!rest1.isEmpty) rest1
    else
      pure (c1, frame)

/-- The frame selection at the start of `logLine`: the first `frames.Next()` followed by the
loop, for the frames `runtime.CallersFrames(pc)` delivers. -/
def callerFrame (c : LoggingFunctions) (frames : List Frame) :
    Except GoPanic (LoggingFunctions × Frame) :=
  let first := Frames.Next frames
  selectFrame c first.1.1 first.1.2 first.2

/-- The prefix written by `fmt.Fprintf(buf, "%s [%s] %s:(%s:%d): ", ...)`. -/
def linePrefix (now level function filename : String) (line : Nat) : String :=
  now ++ " [" ++ level ++ "] " ++ function ++ ":(" ++ filename ++ ":" ++ toString line ++ "): "

/-- Embedding of `(*Std).logLine` for the writer `w`. -/
def Std.logLine (l : Std) (world : World) (call : Call) (w : Nat) (level : String) :
    Except GoPanic (World × Std) := do
  let (lf, frame) ← callerFrame world.loggingFunctions call.frames
  let (l1, filename, function) ← l.lookupFunc frame.Func
  let buf := linePrefix call.now level function filename frame.Line
  let buf := buf ++ call.msg
  let n := buf.length
  -- `buf.Bytes()[n-1]` is out of range when `n` is 0
  match buf.data[n - 1]? with
  | none => throw .indexOutOfRange
  | some last =>
    let buf := if last != '\n' then buf ++ "\n" else buf
    pure ({ loggingFunctions := lf, writes := world.writes ++ [(w, buf)] }, l1)

/-- Embedding of `(*Std).Debugf`. -/
def Std.Debugf (l : Std) (world : World) (call : Call) : Except GoPanic (World × Std) :=
  if !l.Debug then pure (world, l)
  else l.logLine world call l.out "debug"

/-- Embedding of `(*Std).Infof`. -/
def Std.Infof (l : Std) (world : World) (call : Call) : Except GoPanic (World × Std) :=
  l.logLine world call l.out "info "

/-- Embedding of `(*Std).Errorf`. -/
def Std.Errorf (l : Std) (world : World) (call : Call) : Except GoPanic (World × Std) :=
  l.logLine world call l.err "error"

/-- The logger after looking up the functions `gs` in order. -/
def lookupAll : Std → List Func → Except GoPanic Std
  | l, [] => pure l
  | l, g :: gs => do
    let r ← l.lookupFunc (some g)
    lookupAll r.1 gs

/-! ## Predicates used in the statements -/

/-- The details `lookupFunc` derives for `f` on a cache miss. -/
def missDetails (f : Func) : stdLoggerFuncDetails :=
  { filename := filepath.Base f.file
    function := filepath.Join [filepath.Base (filepath.Dir f.name), filepath.Base f.name] }


/-- Every entry of the classification cache is the suffix test of some function of `fs`. -/
def CacheFrom (fs : List Func) (c : LoggingFunctions) : Prop :=
  ∀ m, c = some m → ∀ pc b, m.get pc = some b → ∃ g ∈ fs, g.entry = pc ∧ b = isLoggerName g.name

/-- An ordinary path element: not empty, without separator, neither "." nor "..". -/
def Ordinary (s : String) : Prop :=
  s ≠ "" ∧ '/' ∉ s.data ∧ s ≠ "." ∧ s ≠ ".."

/-- Stack capture delivered at least one frame and every frame carries a function record. -/
def FramesResolved (frames : List Frame) : Prop :=
  frames ≠ [] ∧ ∀ fr ∈ frames, fr.Func ≠ none

/-- The functions of the captured frames. -/
def frameFuncs (frames : List Frame) : List Func :=
  frames.filterMap (fun fr => fr.Func)

/-- The call site the specification asks for: the first frame whose function name fails the
suffix test, and the last frame when every name passes it. -/
def expectedFrame (frames : List Frame) : Option Frame :=
  match frames.find? (fun fr => !isLoggerName (Func.Name fr.Func)) with
  | some fr => some fr
  | none => frames.getLast?

/-- The message ends with a newline. -/
def endsWithNewline (m : String) : Bool :=
  m.data.getLast? == some '\n'

/-- The line made of a prefix and a message, with a newline added when the message does not end
with one. -/
def emittedLine (pre msg : String) : String :=
  if endsWithNewline msg then pre ++ msg else pre ++ msg ++ "\n"

/-- The last byte is a newline and the byte before the last is not (the specification's
"exactly one trailing newline"). -/
def exactlyOneTrailingNewline (s : String) : Bool :=
  s.data.getLast? == some '\n' && s.data.dropLast.getLast? != some '\n'

/-- The chunks passed to `Write` on the writer `w`, in order. -/
def writesOn (world : World) (w : Nat) : List String :=
  (world.writes.filter (fun p => p.1 == w)).map (fun p => p.2)

/-! ## Concrete functions, loggers and calls -/

def fA : Func := ⟨100, "main.main", "/src/app/main.go", 10⟩
def fW : Func := ⟨200, "example.com/x/util.Infof", "/src/x/util/log.go", 5⟩
def stdDebugf : Func := ⟨1, "github.com/lwithers/lwlog.(*Std).Debugf", "/src/lwlog/std.go", 65⟩
def stdInfof : Func := ⟨2, "github.com/lwithers/lwlog.(*Std).Infof", "/src/lwlog/std.go", 73⟩
def stdErrorf : Func := ⟨3, "github.com/lwithers/lwlog.(*Std).Errorf", "/src/lwlog/std.go", 78⟩
def w0 : World := ⟨none, []⟩
def lDebug : Std := { NewLogger "" 1 2 with Debug := true }
def l0 : Std := NewLogger "" 1 2

/-! ## Sanity checks of the embedding on concrete inputs -/

theorem check_Base_file : filepath.Base "/a/b/std.go" = "std.go" := by decide
theorem check_Base_empty : filepath.Base "" = "." := by decide
theorem check_Base_slashes : filepath.Base "///" = "/" := by decide
theorem check_Dir_qualified : filepath.Dir "github.com/lwithers/lwlog.(*Std).Infof" = "github.com/lwithers" := by decide
theorem check_Dir_plain : filepath.Dir "main.main" = "." := by decide
theorem check_Clean_dotdot : filepath.Clean "a/../../b/./c//d/.." = "../b/c" := by decide
theorem check_Clean_rooted : filepath.Clean "/../a/b/../c" = "/a/c" := by decide
theorem check_Join_qualified : filepath.Join ["lwithers", "lwlog.(*Std).Infof"] = "lwithers/lwlog.(*Std).Infof" := by decide
theorem check_Join_plain : filepath.Join [".", "main.main"] = "main.main" := by decide

theorem check_Infof_wrapper : l0.Infof w0 ⟨"T", [⟨some fW, 7⟩, ⟨some fA, 12⟩], "hello"⟩
    = .ok (⟨some ⟨[(200, true)]⟩, [(1, "T [info ] main.main:(main.go:12): hello\n")]⟩,
        { l0 with funcs := ⟨[(100, ⟨"main.go", "main.main"⟩)]⟩ }) := by decide
theorem check_Infof_no_frames : l0.Infof w0 ⟨"T", [], "hello"⟩ = .error .nilDereference := by decide


/-! ## Go maps -/

theorem GoMap.get_set_self {V : Type} (m : GoMap V) (k : Nat) (v : V) :
    (m.set k v).get k = some v := by
  simp [GoMap.get, GoMap.set, List.lookup]

theorem GoMap.get_set_ne {V : Type} (m : GoMap V) (k j : Nat) (v : V) (h : j ≠ k) :
    (m.set k v).get j = m.get j := by
  have hjk : (j == k) = false := by simpa using h
  simp only [GoMap.get, GoMap.set, List.lookup, hjk]
  induction m.entries with
  | nil => rfl
  | cons p ps ih =>
    obtain ⟨a, b⟩ := p
    by_cases hp : a = k
    · subst hp
      simpa [List.filter, List.lookup, hjk] using ih
    · have hak : (a != k) = true := by simpa using hp
      simp only [List.filter, hak, List.lookup]
      rw [ih]

theorem GoMap.get_empty {V : Type} (k : Nat) : (GoMap.empty : GoMap V).get k = none := rfl

/-! ## `strings.HasSuffix` -/

theorem strings.HasSuffix_iff (s suffix : String) :
    strings.HasSuffix s suffix = true ↔ ∃ pre : String, s = pre ++ suffix := by
  simp only [strings.HasSuffix, Bool.and_eq_true, decide_eq_true_eq, beq_iff_eq, String.length]
  constructor
  · rintro ⟨_, h⟩
    refine ⟨⟨s.data.take (s.data.length - suffix.data.length)⟩, ?_⟩
    apply String.ext
    rw [String.data_append]
    have hsplit := (List.take_append_drop (s.data.length - suffix.data.length) s.data).symm
    rw [h] at hsplit
    exact hsplit
  · rintro ⟨pre, rfl⟩
    simp [String.data_append]

theorem isLoggerName_iff (fn : String) : isLoggerName fn = true ↔ EndsWithLoggingSuffix fn := by
  simp only [isLoggerName, Bool.or_eq_true, strings.HasSuffix_iff, EndsWithLoggingSuffix]
  constructor
  · rintro ((⟨p, h⟩ | ⟨p, h⟩) | ⟨p, h⟩)
    · exact ⟨p, Or.inl h⟩
    · exact ⟨p, Or.inr (Or.inl h)⟩
    · exact ⟨p, Or.inr (Or.inr h)⟩
  · rintro ⟨p, h | h | h⟩
    · exact Or.inl (Or.inl ⟨p, h⟩)
    · exact Or.inl (Or.inr ⟨p, h⟩)
    · exact Or.inr ⟨p, h⟩

/-! ## `IsLoggingFunction` -/

theorem IsLoggingFunction_hit (c : LoggingFunctions) (m : GoMap Bool) (f : Func) (b : Bool)
    (hc : c = some m) (h : m.get f.entry = some b) :
    IsLoggingFunction c (some f) = .ok (c, b) := by
  subst hc
  simp [IsLoggingFunction, Func.Entry, h, bind, Except.bind, pure, Except.pure]

theorem IsLoggingFunction_miss (c : LoggingFunctions) (f : Func)
    (h : ∀ m, c = some m → m.get f.entry = none) :
    IsLoggingFunction c (some f)
      = .ok (some ((c.getD GoMap.empty).set f.entry (isLoggerName f.name)),
          isLoggerName f.name) := by
  cases c with
  | none => simp [IsLoggingFunction, Func.Entry, Func.Name, bind, Except.bind, pure, Except.pure]
  | some m =>
    have := h m rfl
    simp [IsLoggingFunction, Func.Entry, Func.Name, this, bind, Except.bind, pure, Except.pure]

theorem CacheFrom_none (fs : List Func) : CacheFrom fs none := by
  intro m hm; cases hm

theorem CacheFrom_step (S : List Func) (c : LoggingFunctions) (f : Func)
    (hc : CacheFrom S c) (hf : f ∈ S) (hS : EntriesDetermineNames S) :
    ∃ c1, IsLoggingFunction c (some f) = .ok (c1, isLoggerName f.name) ∧ CacheFrom S c1 := by
  by_cases hit : ∃ m b, c = some m ∧ m.get f.entry = some b
  · obtain ⟨m, b, hm, hb⟩ := hit
    obtain ⟨g, hg, hge, hgb⟩ := hc m hm _ _ hb
    have : b = isLoggerName f.name := by rw [hgb, hS g hg f hf hge]
    exact ⟨c, by rw [IsLoggingFunction_hit c m f b hm hb, this], hc⟩
  · have hmiss : ∀ m, c = some m → m.get f.entry = none := by
      intro m hm
      cases hget : m.get f.entry with
      | none => rfl
      | some b => exact absurd ⟨m, b, hm, hget⟩ hit
    refine ⟨_, IsLoggingFunction_miss c f hmiss, ?_⟩
    intro m1 hm1 pc b hb
    cases hm1
    by_cases hpc : pc = f.entry
    · subst hpc
      rw [GoMap.get_set_self] at hb
      cases hb
      exact ⟨f, hf, rfl, rfl⟩
    · rw [GoMap.get_set_ne _ _ _ _ hpc] at hb
      cases c with
      | none => simp [GoMap.get_empty] at hb
      | some m => exact hc m rfl pc b hb

theorem CacheFrom_classifyAll (S : List Func) (hS : EntriesDetermineNames S) (fs : List Func) :
    ∀ c, CacheFrom S c → (∀ f ∈ fs, f ∈ S) → CacheFrom S (classifyAll c fs) := by
  induction fs with
  | nil => intro c hc _; exact hc
  | cons f fs ih =>
    intro c hc hsub
    obtain ⟨c1, h1, hc1⟩ := CacheFrom_step S c f hc (hsub f (List.mem_cons_self _ _)) hS
    simp only [classifyAll, h1]
    exact ih c1 hc1 (fun g hg => hsub g (List.mem_cons_of_mem _ hg))

/-- C2. Classifier correctness: in every cache state reached from the nil map by calls of
`IsLoggingFunction` on functions `fs`, with entry addresses determining names among `f :: fs`,
`IsLoggingFunction f` returns without panic, and returns true exactly when the name of `f` ends
with ".Debugf", ".Infof" or ".Logf"; in particular it returns false for "pkg.Infof.func1",
"pkg.Debugfoo" and the empty name. -/
theorem IsLoggingFunction_correct (fs : List Func) (f : Func)
    (h : EntriesDetermineNames (f :: fs)) :
    ∃ c b, IsLoggingFunction (classifyAll none fs) (some f) = .ok (c, b) ∧
      (b = true ↔ EndsWithLoggingSuffix f.name) ∧
      (f.name ∈ ["pkg.Infof.func1", "pkg.Debugfoo", ""] → b = false) := by
  have hc := CacheFrom_classifyAll (f :: fs) h fs none (CacheFrom_none _)
    (fun g hg => List.mem_cons_of_mem _ hg)
  obtain ⟨c1, h1, _⟩ := CacheFrom_step (f :: fs) _ f hc (List.mem_cons_self _ _) h
  refine ⟨c1, _, h1, isLoggerName_iff _, ?_⟩
  intro hn
  simp only [List.mem_cons, List.mem_singleton, List.not_mem_nil, or_false] at hn
  rcases hn with hn | hn | hn <;> rw [hn] <;> decide

theorem IsLoggingFunction_correct_witness :
    EntriesDetermineNames [⟨300, "pkg.Infof.func1", "f.go", 1⟩, fW, fA] ∧
    ∃ c b, IsLoggingFunction (classifyAll none [fW, fA]) (some ⟨300, "pkg.Infof.func1", "f.go", 1⟩)
        = .ok (c, b) ∧
      (b = true ↔ EndsWithLoggingSuffix "pkg.Infof.func1") ∧
      ("pkg.Infof.func1" ∈ ["pkg.Infof.func1", "pkg.Debugfoo", ""] → b = false) :=
  ⟨by unfold EntriesDetermineNames; decide,
   IsLoggingFunction_correct [fW, fA] ⟨300, "pkg.Infof.func1", "f.go", 1⟩
     (by unfold EntriesDetermineNames; decide)⟩

theorem strings.HasSuffix_iff_isSuffix (s suffix : String) :
    strings.HasSuffix s suffix = true ↔ suffix.data <:+ s.data := by
  rw [strings.HasSuffix_iff]
  constructor
  · rintro ⟨pre, rfl⟩
    exact ⟨pre.data, (String.data_append _ _).symm⟩
  · rintro ⟨t, ht⟩
    exact ⟨⟨t⟩, String.ext (by rw [String.data_append, ht])⟩

theorem strings.HasSuffix_append (pre a b : String) (h : b.length ≤ a.length) :
    strings.HasSuffix (pre ++ a) b = strings.HasSuffix a b := by
  rw [Bool.eq_iff_iff, strings.HasSuffix_iff_isSuffix, strings.HasSuffix_iff_isSuffix,
    String.data_append]
  constructor
  · intro hb
    exact List.suffix_of_suffix_length_le hb (List.suffix_append _ _) h
  · intro hb
    exact hb.trans (List.suffix_append _ _)

theorem isLoggerName_Errorf (pre : String) : isLoggerName (pre ++ ".Errorf") = false := by
  simp only [isLoggerName]
  rw [strings.HasSuffix_append pre _ _ (by decide), strings.HasSuffix_append pre _ _ (by decide),
    strings.HasSuffix_append pre _ _ (by decide)]
  decide

/-- C3 (counterexample). On the method `(*Std).Errorf`, `IsLoggingFunction` returns false. -/
theorem IsLoggingFunction_Errorf_false :
    stdErrorf.name = "github.com/lwithers/lwlog.(*Std).Errorf" ∧
    IsLoggingFunction none (some stdErrorf) = .ok (some ⟨[(3, false)]⟩, false) := by
  decide

/-- C3 (amended). In every cache state reached from the nil map, with entry addresses
determining names, `IsLoggingFunction` returns true for a function whose name ends in ".Debugf"
or ".Infof" (so for `Std.Debugf` and `Std.Infof`) and false for a function whose name ends in
".Errorf" (so for `Std.Errorf`). -/
theorem IsLoggingFunction_entry_points (fs : List Func) (f : Func)
    (h : EntriesDetermineNames (f :: fs)) :
    ∃ c b, IsLoggingFunction (classifyAll none fs) (some f) = .ok (c, b) ∧
      ((∃ pre : String, f.name = pre ++ ".Debugf" ∨ f.name = pre ++ ".Infof") → b = true) ∧
      ((∃ pre : String, f.name = pre ++ ".Errorf") → b = false) := by
  have hc := CacheFrom_classifyAll (f :: fs) h fs none (CacheFrom_none _)
    (fun g hg => List.mem_cons_of_mem _ hg)
  obtain ⟨c1, h1, _⟩ := CacheFrom_step (f :: fs) _ f hc (List.mem_cons_self _ _) h
  refine ⟨c1, _, h1, ?_, ?_⟩
  · rintro ⟨pre, hp | hp⟩
    · exact (isLoggerName_iff _).2 ⟨pre, Or.inl hp⟩
    · exact (isLoggerName_iff _).2 ⟨pre, Or.inr (Or.inl hp)⟩
  · rintro ⟨pre, hp⟩
    rw [hp]
    exact isLoggerName_Errorf pre

theorem IsLoggingFunction_entry_points_witness :
    EntriesDetermineNames [stdErrorf, stdDebugf, stdInfof, fA] ∧
    ∃ c b, IsLoggingFunction (classifyAll none [stdDebugf, stdInfof, fA]) (some stdErrorf)
        = .ok (c, b) ∧
      ((∃ pre : String, stdErrorf.name = pre ++ ".Debugf" ∨ stdErrorf.name = pre ++ ".Infof")
        → b = true) ∧
      ((∃ pre : String, stdErrorf.name = pre ++ ".Errorf") → b = false) :=
  ⟨by unfold EntriesDetermineNames; decide,
   IsLoggingFunction_entry_points [stdDebugf, stdInfof, fA] stdErrorf
     (by unfold EntriesDetermineNames; decide)⟩

/-! ## Frame selection -/

theorem selectFrame_spec (S : List Func) (hS : EntriesDetermineNames S) :
    ∀ (rest : List Frame) (fr : Frame) (more : Bool) (c : LoggingFunctions),
      CacheFrom S c → (∀ x ∈ fr :: rest, ∃ f ∈ S, x.Func = some f) →
      (more = true ↔ rest ≠ []) →
      ∃ c1 x, selectFrame c fr more rest = .ok (c1, x) ∧ CacheFrom S c1 ∧
        expectedFrame (fr :: rest) = some x := by
  intro rest
  induction rest with
  | nil =>
    intro fr more c hc _ hmore
    have : more = false := by
      cases more with
      | false => rfl
      | true => exact absurd rfl (hmore.1 rfl)
    subst this
    refine ⟨c, fr, rfl, hc, ?_⟩
    simp only [expectedFrame, List.find?_cons, List.find?_nil]
    cases isLoggerName (Func.Name fr.Func) <;> rfl
  | cons g rest ih =>
    intro fr more c hc hres hmore
    have : more = true := hmore.2 (List.cons_ne_nil _ _)
    subst this
    obtain ⟨f, hfS, hf⟩ := hres fr (List.mem_cons_self _ _)
    obtain ⟨c1, h1, hc1⟩ := CacheFrom_step S c f hc hfS hS
    have hname : Func.Name fr.Func = f.name := by rw [hf]; rfl
    cases hlog : isLoggerName f.name with
    | false =>
      refine ⟨c1, fr, ?_, hc1, ?_⟩
      · simp [selectFrame, hf, h1, hlog, bind, Except.bind, pure, Except.pure]
      · simp [expectedFrame, List.find?_cons, hname, hlog]
    | true =>
      have hres1 : ∀ x ∈ g :: rest, ∃ f ∈ S, x.Func = some f :=
        fun x hx => hres x (List.mem_cons_of_mem _ hx)
      have hexp : expectedFrame (fr :: g :: rest) = expectedFrame (g :: rest) := by
        simp [expectedFrame, List.find?_cons, hname, hlog]
      obtain ⟨c2, x, h2, hc2, hx⟩ := ih g (!rest.isEmpty) c1 hc1 hres1 (by cases rest <;> simp)
      refine ⟨c2, x, ?_, hc2, hexp ▸ hx⟩
      rw [← h2]
      simp [selectFrame, hf, h1, hlog, bind, Except.bind]

theorem callerFrame_spec (S : List Func) (hS : EntriesDetermineNames S) (c : LoggingFunctions)
    (frames : List Frame) (hc : CacheFrom S c) (hne : frames ≠ [])
    (hres : ∀ x ∈ frames, ∃ f ∈ S, x.Func = some f) :
    ∃ c1 x, callerFrame c frames = .ok (c1, x) ∧ CacheFrom S c1 ∧
      expectedFrame frames = some x := by
  cases frames with
  | nil => exact absurd rfl hne
  | cons fr rest =>
    exact selectFrame_spec S hS rest fr (!rest.isEmpty) c hc hres (by cases rest <;> simp)

theorem mem_frameFuncs (frames : List Frame) (hres : ∀ fr ∈ frames, fr.Func ≠ none) :
    ∀ x ∈ frames, ∃ f ∈ frameFuncs frames, x.Func = some f := by
  intro x hx
  cases hf : x.Func with
  | none => exact absurd hf (hres x hx)
  | some f => exact ⟨f, List.mem_filterMap.2 ⟨x, hx, hf⟩, rfl⟩

theorem expectedFrame_head (a : Frame) (rest : List Frame)
    (h : isLoggerName (Func.Name a.Func) = false) : expectedFrame (a :: rest) = some a := by
  simp [expectedFrame, List.find?_cons, h]

theorem expectedFrame_second (w a : Frame) (rest : List Frame)
    (hw : isLoggerName (Func.Name w.Func) = true)
    (h : isLoggerName (Func.Name a.Func) = false) : expectedFrame (w :: a :: rest) = some a := by
  simp [expectedFrame, List.find?_cons, h, hw]

/-- Frame selection in `logLine` on captures with function records: for every non-empty
sequence of captured frames carrying function records, in every cache state reached from the nil map (entry addresses determining
names), the selected frame is the first one whose function name fails the suffix test of
`IsLoggingFunction`, and the last captured frame when every name passes it. In particular a
non-logging direct caller is selected, and with a wrapper whose name ends in a recognised suffix
between the caller and the entry point the caller is selected, not the wrapper. -/
theorem callerFrame_first_non_logging (fs : List Func) (frames : List Frame)
    (hres : FramesResolved frames) (h : EntriesDetermineNames (frameFuncs frames ++ fs)) :
    ∃ c x, callerFrame (classifyAll none fs) frames = .ok (c, x) ∧
      expectedFrame frames = some x ∧
      (∀ a rest, frames = a :: rest → ¬ EndsWithLoggingSuffix (Func.Name a.Func) → x = a) ∧
      (∀ w a rest, frames = w :: a :: rest → EndsWithLoggingSuffix (Func.Name w.Func) →
        ¬ EndsWithLoggingSuffix (Func.Name a.Func) → x = a) := by
  have hc := CacheFrom_classifyAll (frameFuncs frames ++ fs) h fs none (CacheFrom_none _)
    (fun g hg => List.mem_append_right _ hg)
  have hmem : ∀ x ∈ frames, ∃ f ∈ frameFuncs frames ++ fs, x.Func = some f := by
    intro x hx
    obtain ⟨f, hf, hxf⟩ := mem_frameFuncs frames hres.2 x hx
    exact ⟨f, List.mem_append_left _ hf, hxf⟩
  obtain ⟨c1, x, hsel, _, hexp⟩ := callerFrame_spec _ h _ frames hc hres.1 hmem
  refine ⟨c1, x, hsel, hexp, ?_, ?_⟩
  · intro a rest hfr ha
    subst hfr
    have hn : isLoggerName (Func.Name a.Func) = false := by
      rw [← Bool.not_eq_true, isLoggerName_iff]; exact ha
    rw [expectedFrame_head a rest hn] at hexp
    exact (Option.some.inj hexp).symm
  · intro w a rest hfr hw ha
    subst hfr
    have hn : isLoggerName (Func.Name a.Func) = false := by
      rw [← Bool.not_eq_true, isLoggerName_iff]; exact ha
    rw [expectedFrame_second w a rest ((isLoggerName_iff _).2 hw) hn] at hexp
    exact (Option.some.inj hexp).symm

theorem callerFrame_first_non_logging_witness :
    FramesResolved [⟨some fW, 7⟩, ⟨some fA, 12⟩] ∧
    EntriesDetermineNames (frameFuncs [⟨some fW, 7⟩, ⟨some fA, 12⟩] ++ [stdInfof]) ∧
    ∃ c x, callerFrame (classifyAll none [stdInfof]) [⟨some fW, 7⟩, ⟨some fA, 12⟩] = .ok (c, x) ∧
      expectedFrame [⟨some fW, 7⟩, ⟨some fA, 12⟩] = some x ∧
      (∀ a rest, [⟨some fW, 7⟩, ⟨some fA, 12⟩] = a :: rest →
        ¬ EndsWithLoggingSuffix (Func.Name a.Func) → x = a) ∧
      (∀ w a rest, [⟨some fW, 7⟩, ⟨some fA, 12⟩] = w :: a :: rest →
        EndsWithLoggingSuffix (Func.Name w.Func) →
        ¬ EndsWithLoggingSuffix (Func.Name a.Func) → x = a) :=
  ⟨by unfold FramesResolved; decide, by unfold EntriesDetermineNames; decide,
   callerFrame_first_non_logging [stdInfof] [⟨some fW, 7⟩, ⟨some fA, 12⟩]
     (by unfold FramesResolved; decide) (by unfold EntriesDetermineNames; decide)⟩

/-! ## `lookupFunc` -/

theorem lookupFunc_hit (l : Std) (f : Func) (d : stdLoggerFuncDetails)
    (h : l.funcs.get f.entry = some d) :
    l.lookupFunc (some f) = .ok (l, d.filename, d.function) := by
  simp [Std.lookupFunc, Func.Entry, h, bind, Except.bind, pure, Except.pure]

theorem lookupFunc_miss (l : Std) (f : Func) (h : l.funcs.get f.entry = none) :
    l.lookupFunc (some f)
      = .ok ({ l with funcs := l.funcs.set f.entry (missDetails f) },
          (missDetails f).filename, (missDetails f).function) := by
  simp [Std.lookupFunc, Func.Entry, Func.FileLine, Func.Name, h, bind, Except.bind, pure,
    Except.pure, missDetails]

theorem lookupFunc_keeps (l : Std) (g : Func) (k : Nat) (d : stdLoggerFuncDetails)
    (h : l.funcs.get k = some d) :
    ∃ r, l.lookupFunc (some g) = .ok r ∧ r.1.funcs.get k = some d := by
  cases hg : l.funcs.get g.entry with
  | some dg => exact ⟨_, lookupFunc_hit l g dg hg, h⟩
  | none =>
    refine ⟨_, lookupFunc_miss l g hg, ?_⟩
    have hne : k ≠ g.entry := by
      intro hk
      rw [hk, hg] at h
      cases h
    simpa [GoMap.get_set_ne _ _ _ _ hne] using h

theorem lookupAll_keeps (k : Nat) (d : stdLoggerFuncDetails) (gs : List Func) :
    ∀ l : Std, l.funcs.get k = some d →
      ∃ l2, lookupAll l gs = .ok l2 ∧ l2.funcs.get k = some d := by
  induction gs with
  | nil => intro l h; exact ⟨l, rfl, h⟩
  | cons g gs ih =>
    intro l h
    obtain ⟨r, hr, hk⟩ := lookupFunc_keeps l g k d h
    obtain ⟨l2, h2, hk2⟩ := ih r.1 hk
    exact ⟨l2, by simp [lookupAll, hr, bind, Except.bind, h2], hk2⟩

/-- C5. Cache cold/warm equivalence of `lookupFunc`: when the call-site cache has no entry for
`f`, the first lookup returns a pair and stores it, and after any sequence `gs` of further
lookups the entry of `f` is still that pair and a lookup of `f` returns the same pair without
changing the logger. -/
theorem lookupFunc_cold_warm (l : Std) (f : Func) (h : l.funcs.get f.entry = none) :
    ∃ l1 filename function,
      l.lookupFunc (some f) = .ok (l1, filename, function) ∧
      l1.funcs.get f.entry = some ⟨filename, function⟩ ∧
      ∀ gs : List Func, ∃ l2,
        lookupAll l1 gs = .ok l2 ∧
        l2.funcs.get f.entry = l1.funcs.get f.entry ∧
        l2.lookupFunc (some f) = .ok (l2, filename, function) := by
  have hmiss := lookupFunc_miss l f h
  refine ⟨_, _, _, hmiss, GoMap.get_set_self _ _ _, ?_⟩
  intro gs
  obtain ⟨l2, h2, hk⟩ := lookupAll_keeps f.entry (missDetails f) gs
    { l with funcs := l.funcs.set f.entry (missDetails f) }
    (GoMap.get_set_self l.funcs f.entry _)
  refine ⟨l2, h2, ?_, ?_⟩
  · rw [hk]; exact (GoMap.get_set_self _ _ _).symm
  · exact lookupFunc_hit l2 f _ hk

theorem lookupFunc_cold_warm_witness :
    l0.funcs.get fA.entry = none ∧
    ∃ l1 filename function,
      l0.lookupFunc (some fA) = .ok (l1, filename, function) ∧
      l1.funcs.get fA.entry = some ⟨filename, function⟩ ∧
      ∀ gs : List Func, ∃ l2,
        lookupAll l1 gs = .ok l2 ∧
        l2.funcs.get fA.entry = l1.funcs.get fA.entry ∧
        l2.lookupFunc (some fA) = .ok (l2, filename, function) :=
  ⟨by decide, lookupFunc_cold_warm l0 fA (by decide)⟩

/-! ## `logLine` -/

theorem IsLoggingFunction_ok (c : LoggingFunctions) (f : Func) :
    ∃ r, IsLoggingFunction c (some f) = .ok r := by
  by_cases hit : ∃ m b, c = some m ∧ m.get f.entry = some b
  · obtain ⟨m, b, hm, hb⟩ := hit
    exact ⟨_, IsLoggingFunction_hit c m f b hm hb⟩
  · refine ⟨_, IsLoggingFunction_miss c f ?_⟩
    intro m hm
    cases hget : m.get f.entry with
    | none => rfl
    | some b => exact absurd ⟨m, b, hm, hget⟩ hit

theorem selectFrame_ok :
    ∀ (rest : List Frame) (fr : Frame) (more : Bool) (c : LoggingFunctions),
      (∀ x ∈ fr :: rest, x.Func ≠ none) → (more = true → rest ≠ []) →
      ∃ c1 x, selectFrame c fr more rest = .ok (c1, x) ∧ x ∈ fr :: rest := by
  intro rest
  induction rest with
  | nil =>
    intro fr more c _ hmore
    cases more with
    | false => exact ⟨c, fr, rfl, List.mem_cons_self _ _⟩
    | true => exact absurd rfl (hmore rfl)
  | cons g rest ih =>
    intro fr more c hres _
    cases more with
    | false => exact ⟨c, fr, rfl, List.mem_cons_self _ _⟩
    | true =>
      cases hf : fr.Func with
      | none => exact absurd hf (hres fr (List.mem_cons_self _ _))
      | some f =>
        obtain ⟨r, hr⟩ := IsLoggingFunction_ok c f
        cases hb : r.2 with
        | false =>
          refine ⟨r.1, fr, ?_, List.mem_cons_self _ _⟩
          simp [selectFrame, hf, hr, hb, bind, Except.bind, pure, Except.pure]
        | true =>
          obtain ⟨c2, x, h2, hx⟩ := ih g (!rest.isEmpty) r.1
            (fun x hx => hres x (List.mem_cons_of_mem _ hx)) (by cases rest <;> simp)
          refine ⟨c2, x, ?_, List.mem_cons_of_mem _ hx⟩
          rw [← h2]
          simp [selectFrame, hf, hr, hb, bind, Except.bind]

theorem callerFrame_ok (c : LoggingFunctions) (frames : List Frame)
    (hres : FramesResolved frames) :
    ∃ c1 x, callerFrame c frames = .ok (c1, x) ∧ x ∈ frames := by
  obtain ⟨hne, hall⟩ := hres
  cases frames with
  | nil => exact absurd rfl hne
  | cons fr rest => exact selectFrame_ok rest fr (!rest.isEmpty) c hall (by cases rest <;> simp)

theorem lookupFunc_ok (l : Std) (f : Func) :
    ∃ l1 filename function, l.lookupFunc (some f) = .ok (l1, filename, function) := by
  cases hg : l.funcs.get f.entry with
  | some d => exact ⟨_, _, _, lookupFunc_hit l f d hg⟩
  | none => exact ⟨_, _, _, lookupFunc_miss l f hg⟩

theorem linePrefix_getLast (now level function filename : String) (line : Nat) :
    (linePrefix now level function filename line).data.getLast? = some ' ' := by
  unfold linePrefix
  rw [String.data_append, List.getLast?_append]
  rfl

theorem buffer_last (pre msg : String) (h : pre.data.getLast? = some ' ') :
    (pre ++ msg).data[(pre ++ msg).length - 1]?
      = some ((msg.data.getLast?).getD ' ') := by
  rw [String.length, ← List.getLast?_eq_getElem?, String.data_append, List.getLast?_append, h]
  cases msg.data.getLast? <;> rfl

theorem logLine_eq (l l1 : Std) (world : World) (call : Call) (w : Nat) (level : String)
    (c1 : LoggingFunctions) (x : Frame) (filename function : String)
    (hsel : callerFrame world.loggingFunctions call.frames = .ok (c1, x))
    (hlook : l.lookupFunc x.Func = .ok (l1, filename, function)) :
    l.logLine world call w level
      = .ok (⟨c1, world.writes ++
          [(w, emittedLine (linePrefix call.now level function filename x.Line) call.msg)]⟩,
          l1) := by
  have hlast := buffer_last (linePrefix call.now level function filename x.Line) call.msg
    (linePrefix_getLast _ _ _ _ _)
  simp only [Std.logLine, hsel, hlook, bind, Except.bind, hlast, pure, Except.pure]
  congr 3
  simp only [emittedLine, endsWithNewline]
  by_cases h : call.msg.data.getLast? = some '\n'
  · simp [h]
  · have h2 : (call.msg.data.getLast?.getD ' ' != '\n') = true := by
      cases hm : call.msg.data.getLast? with
      | none => decide
      | some ch =>
        simp only [Option.getD_some, bne_iff_ne, ne_eq]
        intro hc
        exact h (by rw [hm, hc])
    simp [h, h2]

theorem logLine_resolved (l : Std) (world : World) (call : Call) (w : Nat) (level : String)
    (hres : FramesResolved call.frames) :
    ∃ c1 x l1 filename function,
      callerFrame world.loggingFunctions call.frames = .ok (c1, x) ∧ x ∈ call.frames ∧
      l.lookupFunc x.Func = .ok (l1, filename, function) ∧
      l.logLine world call w level
        = .ok (⟨c1, world.writes ++
            [(w, emittedLine (linePrefix call.now level function filename x.Line) call.msg)]⟩,
            l1) := by
  obtain ⟨c1, x, hsel, hx⟩ := callerFrame_ok world.loggingFunctions call.frames hres
  cases hf : x.Func with
  | none => exact absurd hf (hres.2 x hx)
  | some f =>
    obtain ⟨l1, filename, function, hlook⟩ := lookupFunc_ok l f
    rw [← hf] at hlook
    exact ⟨c1, x, l1, filename, function, hsel, hx, hlook,
      logLine_eq l l1 world call w level c1 x filename function hsel hlook⟩

theorem emittedLine_no_newline (pre msg : String) (h : endsWithNewline msg = false) :
    emittedLine pre msg = pre ++ msg ++ "\n" := by
  simp [emittedLine, h]

/-- C6. Line format: when stack capture delivers frames with function records and the expanded
message does not end in a newline, the call site resolves to some frame `x` of the capture and
some `(filename, function)`, and the single chunk passed to the destination writer is exactly
ts ++ " [" ++ sev ++ "] " ++ function ++ ":(" ++ filename ++ ":" ++ decimal line ++ "): " ++ m
++ "\n", with sev "debug" for `Debugf`, "info " for `Infof` and "error" for `Errorf`, each five
characters long. -/
theorem line_format (l : Std) (world : World) (call : Call)
    (hres : FramesResolved call.frames) (hm : endsWithNewline call.msg = false) :
    ∃ c1 x l1 filename function,
      callerFrame world.loggingFunctions call.frames = .ok (c1, x) ∧ x ∈ call.frames ∧
      l.lookupFunc x.Func = .ok (l1, filename, function) ∧
      l.Infof world call = .ok (⟨c1, world.writes ++ [(l.out,
        call.now ++ " [" ++ "info " ++ "] " ++ function ++ ":(" ++ filename ++ ":" ++
          toString x.Line ++ "): " ++ call.msg ++ "\n")]⟩, l1) ∧
      l.Errorf world call = .ok (⟨c1, world.writes ++ [(l.err,
        call.now ++ " [" ++ "error" ++ "] " ++ function ++ ":(" ++ filename ++ ":" ++
          toString x.Line ++ "): " ++ call.msg ++ "\n")]⟩, l1) ∧
      (l.Debug = true →
        l.Debugf world call = .ok (⟨c1, world.writes ++ [(l.out,
          call.now ++ " [" ++ "debug" ++ "] " ++ function ++ ":(" ++ filename ++ ":" ++
            toString x.Line ++ "): " ++ call.msg ++ "\n")]⟩, l1)) ∧
      "debug".length = 5 ∧ "info ".length = 5 ∧ "error".length = 5 := by
  obtain ⟨c1, x, hsel, hx⟩ := callerFrame_ok world.loggingFunctions call.frames hres
  cases hf : x.Func with
  | none => exact absurd hf (hres.2 x hx)
  | some f =>
    obtain ⟨l1, filename, function, hlook⟩ := lookupFunc_ok l f
    rw [← hf] at hlook
    refine ⟨c1, x, l1, filename, function, hsel, hx, hlook, ?_, ?_, ?_, rfl, rfl, rfl⟩
    · rw [Std.Infof, logLine_eq l l1 world call _ _ c1 x filename function hsel hlook,
        emittedLine_no_newline _ _ hm]
      rfl
    · rw [Std.Errorf, logLine_eq l l1 world call _ _ c1 x filename function hsel hlook,
        emittedLine_no_newline _ _ hm]
      rfl
    · intro hd
      rw [Std.Debugf, logLine_eq l l1 world call _ _ c1 x filename function hsel hlook,
        emittedLine_no_newline _ _ hm]
      simp [hd, linePrefix]

theorem line_format_witness :
    FramesResolved [⟨some fW, 7⟩, ⟨some fA, 12⟩] ∧ endsWithNewline "hello" = false ∧
    ∃ c1 x l1 filename function,
      callerFrame w0.loggingFunctions [⟨some fW, 7⟩, ⟨some fA, 12⟩] = .ok (c1, x) ∧
      x ∈ [(⟨some fW, 7⟩ : Frame), ⟨some fA, 12⟩] ∧
      l0.lookupFunc x.Func = .ok (l1, filename, function) ∧
      l0.Infof w0 ⟨"T", [⟨some fW, 7⟩, ⟨some fA, 12⟩], "hello"⟩
        = .ok (⟨c1, w0.writes ++ [(l0.out,
        "T" ++ " [" ++ "info " ++ "] " ++ function ++ ":(" ++ filename ++ ":" ++
          toString x.Line ++ "): " ++ "hello" ++ "\n")]⟩, l1) ∧
      l0.Errorf w0 ⟨"T", [⟨some fW, 7⟩, ⟨some fA, 12⟩], "hello"⟩
        = .ok (⟨c1, w0.writes ++ [(l0.err,
        "T" ++ " [" ++ "error" ++ "] " ++ function ++ ":(" ++ filename ++ ":" ++
          toString x.Line ++ "): " ++ "hello" ++ "\n")]⟩, l1) ∧
      (l0.Debug = true →
        l0.Debugf w0 ⟨"T", [⟨some fW, 7⟩, ⟨some fA, 12⟩], "hello"⟩
          = .ok (⟨c1, w0.writes ++ [(l0.out,
          "T" ++ " [" ++ "debug" ++ "] " ++ function ++ ":(" ++ filename ++ ":" ++
            toString x.Line ++ "): " ++ "hello" ++ "\n")]⟩, l1)) ∧
      "debug".length = 5 ∧ "info ".length = 5 ∧ "error".length = 5 :=
  ⟨by unfold FramesResolved; decide, by decide,
   line_format l0 w0 ⟨"T", [⟨some fW, 7⟩, ⟨some fA, 12⟩], "hello"⟩
     (by unfold FramesResolved; decide) (by decide)⟩

/-! ## Trailing newline -/

theorem suffix_two_newlines_concat (L : List Char) (b : Char) :
    ['\n', '\n'] <:+ L ++ [b] ↔ b = '\n' ∧ L.getLast? = some '\n' := by
  constructor
  · rintro ⟨t, ht⟩
    have h1 : (t ++ ['\n']) ++ ['\n'] = L ++ [b] := by simpa using ht
    have h2 := List.append_inj' h1 rfl
    refine ⟨(List.singleton_inj.1 h2.2).symm, ?_⟩
    rw [← h2.1]
    simp
  · rintro ⟨rfl, hL⟩
    rcases List.eq_nil_or_concat L with rfl | ⟨L1, c, rfl⟩
    · simp at hL
    · simp only [List.concat_eq_append] at hL ⊢
      simp at hL
      subst hL
      exact ⟨L1, by simp⟩

theorem trailing_newlines (p d : List Char) (hp : p.getLast? = some ' ') :
    (if d.getLast? == some '\n' then p ++ d else p ++ d ++ ['\n']).getLast? = some '\n' ∧
    ((if d.getLast? == some '\n' then p ++ d else p ++ d ++ ['\n']).dropLast.getLast? = some '\n'
      ↔ ['\n', '\n'] <:+ d) := by
  rcases List.eq_nil_or_concat d with rfl | ⟨L, b, rfl⟩
  · simp [hp]
  · simp only [List.concat_eq_append]
    rw [suffix_two_newlines_concat]
    by_cases hb : b = '\n'
    · subst hb
      simp [← List.append_assoc, hp]
    · simp [hb, ← List.append_assoc]

theorem emittedLine_data (pre msg : String) :
    (emittedLine pre msg).data
      = if msg.data.getLast? == some '\n' then pre.data ++ msg.data
        else pre.data ++ msg.data ++ ['\n'] := by
  unfold emittedLine endsWithNewline
  split <;> simp [String.data_append]

theorem emittedLine_trailing (pre msg : String) (hp : pre.data.getLast? = some ' ') :
    (emittedLine pre msg).data.getLast? = some '\n' ∧
    (exactlyOneTrailingNewline (emittedLine pre msg) = true
      ↔ strings.HasSuffix msg "\n\n" = false) := by
  have h := trailing_newlines pre.data msg.data hp
  rw [← emittedLine_data] at h
  refine ⟨h.1, ?_⟩
  have hs : strings.HasSuffix msg "\n\n" = true ↔ ['\n', '\n'] <:+ msg.data :=
    strings.HasSuffix_iff_isSuffix msg "\n\n"
  rw [← Bool.not_eq_true, hs, ← h.2]
  simp [exactlyOneTrailingNewline, h.1]

/-- C7 (counterexample). A message ending in two newlines is written unchanged: the emitted
line ends with two newlines, so the byte before the last is a newline. -/
theorem newline_not_exactly_one :
    l0.Infof w0 ⟨"T", [⟨some fA, 12⟩], "bye\n\n"⟩
      = .ok (⟨none, [(1, "T [info ] main.main:(main.go:12): bye\n\n")]⟩,
          { l0 with funcs := ⟨[(100, ⟨"main.go", "main.main"⟩)]⟩ }) ∧
    exactlyOneTrailingNewline "T [info ] main.main:(main.go:12): bye\n\n" = false := by
  decide

/-- C7 (amended). For every expanded message, the line emitted by `logLine` is the prefix and
the message, followed by a newline exactly when the message does not already end with one; its
last byte is a newline, and the byte before the last is not a newline exactly when the message
does not end with two newlines. -/
theorem newline_at_least_one (l : Std) (world : World) (call : Call) (w : Nat) (level : String)
    (hres : FramesResolved call.frames) :
    ∃ c1 x l1 filename function line,
      x ∈ call.frames ∧
      l.logLine world call w level = .ok (⟨c1, world.writes ++ [(w, line)]⟩, l1) ∧
      line = emittedLine (linePrefix call.now level function filename x.Line) call.msg ∧
      line.data.getLast? = some '\n' ∧
      (exactlyOneTrailingNewline line = true ↔ strings.HasSuffix call.msg "\n\n" = false) := by
  obtain ⟨c1, x, l1, filename, function, _, hx, _, hlog⟩ :=
    logLine_resolved l world call w level hres
  have ht := emittedLine_trailing (linePrefix call.now level function filename x.Line) call.msg
    (linePrefix_getLast _ _ _ _ _)
  exact ⟨c1, x, l1, filename, function, _, hx, hlog, rfl, ht.1, ht.2⟩

theorem newline_at_least_one_witness :
    FramesResolved [⟨some fA, 12⟩] ∧
    ∃ c1 x l1 filename function line,
      x ∈ [(⟨some fA, 12⟩ : Frame)] ∧
      l0.logLine w0 ⟨"T", [⟨some fA, 12⟩], "bye\n"⟩ 1 "info "
        = .ok (⟨c1, w0.writes ++ [(1, line)]⟩, l1) ∧
      line = emittedLine (linePrefix "T" "info " function filename x.Line) "bye\n" ∧
      line.data.getLast? = some '\n' ∧
      (exactlyOneTrailingNewline line = true ↔ strings.HasSuffix "bye\n" "\n\n" = false) :=
  ⟨by unfold FramesResolved; decide,
   newline_at_least_one l0 w0 ⟨"T", [⟨some fA, 12⟩], "bye\n"⟩ 1 "info "
     (by unfold FramesResolved; decide)⟩

/-! ## Entry points -/

theorem writesOn_append_same (c c1 : LoggingFunctions) (ws : List (Nat × String)) (w : Nat)
    (line : String) :
    writesOn ⟨c1, ws ++ [(w, line)]⟩ w = writesOn ⟨c, ws⟩ w ++ [line] := by
  simp [writesOn, List.filter_append, List.filter]

theorem writesOn_append_other (c c1 : LoggingFunctions) (ws : List (Nat × String)) (w v : Nat)
    (line : String) (h : w ≠ v) :
    writesOn ⟨c1, ws ++ [(w, line)]⟩ v = writesOn ⟨c, ws⟩ v := by
  have : (w == v) = false := by simpa using h
  simp [writesOn, List.filter_append, List.filter, this]

/-- Debug suppression on captures with function records: with `Debug` false, `Debugf` returns with the writes, the
classification cache and the logger (call-site cache included) unchanged, whatever the call;
with `Debug` true and a stack capture carrying function records, it performs exactly one
`Write`, on `out`, of one line tagged "debug". -/
theorem Debugf_suppression (l : Std) (world : World) (call : Call) :
    (l.Debug = false → l.Debugf world call = .ok (world, l)) ∧
    (l.Debug = true → FramesResolved call.frames →
      ∃ c1 x l1 filename function,
        x ∈ call.frames ∧
        l.Debugf world call = .ok (⟨c1, world.writes ++ [(l.out,
          emittedLine (linePrefix call.now "debug" function filename x.Line) call.msg)]⟩,
          l1)) := by
  constructor
  · intro hd
    simp [Std.Debugf, hd, pure, Except.pure]
  · intro hd hres
    obtain ⟨c1, x, l1, filename, function, _, hx, _, hlog⟩ :=
      logLine_resolved l world call l.out "debug" hres
    refine ⟨c1, x, l1, filename, function, hx, ?_⟩
    simp [Std.Debugf, hd, hlog]

theorem Debugf_suppression_witness :
    (l0.Debug = false ∧
      l0.Debugf w0 ⟨"T", [⟨some fA, 12⟩], "hello"⟩ = .ok (w0, l0)) ∧
    (lDebug.Debug = true ∧ FramesResolved [⟨some fA, 12⟩] ∧
      ∃ c1 x l1 filename function,
        x ∈ [(⟨some fA, 12⟩ : Frame)] ∧
        lDebug.Debugf w0 ⟨"T", [⟨some fA, 12⟩], "hello"⟩ = .ok (⟨c1, w0.writes ++ [(lDebug.out,
          emittedLine (linePrefix "T" "debug" function filename x.Line) "hello")]⟩, l1)) :=
  ⟨⟨by decide, (Debugf_suppression l0 w0 ⟨"T", [⟨some fA, 12⟩], "hello"⟩).1 (by decide)⟩,
   ⟨by decide, by unfold FramesResolved; decide,
    (Debugf_suppression lDebug w0 ⟨"T", [⟨some fA, 12⟩], "hello"⟩).2 (by decide)
      (by unfold FramesResolved; decide)⟩⟩

/-- Severity routing on captures with function records: for a logger with distinct writers
`out` and `err` and a stack capture carrying function records, `Errorf` performs exactly one `Write`, on
`err`, carrying the complete line, and the writes on `out` are unchanged; `Infof`, and `Debugf`
with `Debug` true, perform exactly one `Write`, on `out`, carrying the complete line, and the
writes on `err` are unchanged. -/
theorem severity_routing (l : Std) (world : World) (call : Call)
    (hne : l.out ≠ l.err) (hres : FramesResolved call.frames) :
    ∃ x l1 filename function,
      x ∈ call.frames ∧
      (∃ wE, l.Errorf world call = .ok (wE, l1) ∧
        wE.writes = world.writes ++ [(l.err,
          emittedLine (linePrefix call.now "error" function filename x.Line) call.msg)] ∧
        writesOn wE l.err = writesOn world l.err ++
          [emittedLine (linePrefix call.now "error" function filename x.Line) call.msg] ∧
        writesOn wE l.out = writesOn world l.out) ∧
      (∃ wI, l.Infof world call = .ok (wI, l1) ∧
        wI.writes = world.writes ++ [(l.out,
          emittedLine (linePrefix call.now "info " function filename x.Line) call.msg)] ∧
        writesOn wI l.out = writesOn world l.out ++
          [emittedLine (linePrefix call.now "info " function filename x.Line) call.msg] ∧
        writesOn wI l.err = writesOn world l.err) ∧
      (l.Debug = true → ∃ wD, l.Debugf world call = .ok (wD, l1) ∧
        wD.writes = world.writes ++ [(l.out,
          emittedLine (linePrefix call.now "debug" function filename x.Line) call.msg)] ∧
        writesOn wD l.out = writesOn world l.out ++
          [emittedLine (linePrefix call.now "debug" function filename x.Line) call.msg] ∧
        writesOn wD l.err = writesOn world l.err) := by
  obtain ⟨c1, x, hsel, hx⟩ := callerFrame_ok world.loggingFunctions call.frames hres
  cases hf : x.Func with
  | none => exact absurd hf (hres.2 x hx)
  | some f =>
    obtain ⟨l1, filename, function, hlook⟩ := lookupFunc_ok l f
    rw [← hf] at hlook
    refine ⟨x, l1, filename, function, hx, ?_, ?_, ?_⟩
    · exact ⟨_, logLine_eq l l1 world call l.err "error" c1 x filename function hsel hlook, rfl,
        writesOn_append_same _ _ _ _ _, writesOn_append_other _ _ _ _ _ _ (Ne.symm hne)⟩
    · exact ⟨_, logLine_eq l l1 world call l.out "info " c1 x filename function hsel hlook, rfl,
        writesOn_append_same _ _ _ _ _, writesOn_append_other _ _ _ _ _ _ hne⟩
    · intro hd
      have hdbg : l.Debugf world call = l.logLine world call l.out "debug" := by
        simp [Std.Debugf, hd]
      rw [hdbg]
      exact ⟨_, logLine_eq l l1 world call l.out "debug" c1 x filename function hsel hlook, rfl,
        writesOn_append_same _ _ _ _ _, writesOn_append_other _ _ _ _ _ _ hne⟩

theorem severity_routing_witness :
    l0.out ≠ l0.err ∧ FramesResolved [⟨some fW, 7⟩, ⟨some fA, 12⟩] ∧
    ∃ x l1 filename function,
      x ∈ [(⟨some fW, 7⟩ : Frame), ⟨some fA, 12⟩] ∧
      (∃ wE, l0.Errorf w0 ⟨"T", [⟨some fW, 7⟩, ⟨some fA, 12⟩], "hello"⟩ = .ok (wE, l1) ∧
        wE.writes = w0.writes ++ [(l0.err,
          emittedLine (linePrefix "T" "error" function filename x.Line) "hello")] ∧
        writesOn wE l0.err = writesOn w0 l0.err ++
          [emittedLine (linePrefix "T" "error" function filename x.Line) "hello"] ∧
        writesOn wE l0.out = writesOn w0 l0.out) ∧
      (∃ wI, l0.Infof w0 ⟨"T", [⟨some fW, 7⟩, ⟨some fA, 12⟩], "hello"⟩ = .ok (wI, l1) ∧
        wI.writes = w0.writes ++ [(l0.out,
          emittedLine (linePrefix "T" "info " function filename x.Line) "hello")] ∧
        writesOn wI l0.out = writesOn w0 l0.out ++
          [emittedLine (linePrefix "T" "info " function filename x.Line) "hello"] ∧
        writesOn wI l0.err = writesOn w0 l0.err) ∧
      (l0.Debug = true →
        ∃ wD, l0.Debugf w0 ⟨"T", [⟨some fW, 7⟩, ⟨some fA, 12⟩], "hello"⟩ = .ok (wD, l1) ∧
        wD.writes = w0.writes ++ [(l0.out,
          emittedLine (linePrefix "T" "debug" function filename x.Line) "hello")] ∧
        writesOn wD l0.out = writesOn w0 l0.out ++
          [emittedLine (linePrefix "T" "debug" function filename x.Line) "hello"] ∧
        writesOn wD l0.err = writesOn w0 l0.err) :=
  ⟨by decide, by unfold FramesResolved; decide,
   severity_routing l0 w0 ⟨"T", [⟨some fW, 7⟩, ⟨some fA, 12⟩], "hello"⟩ (by decide)
     (by unfold FramesResolved; decide)⟩

/-! ## Frames without a function record -/

/-- C4 (failing inputs). When the selected frame has a nil `Func` (no frame captured, or the
caller has no function record), `lookupFunc` dereferences it and the log call panics; when a
frame with a nil `Func` is followed by more frames, `IsLoggingFunction` dereferences it and the
log call panics. Nothing is written. -/
theorem logLine_panics_on_nil_Func :
    l0.Infof w0 ⟨"T", [], ""⟩ = .error .nilDereference ∧
    l0.Infof w0 ⟨"T", [⟨none, 12⟩], "hello"⟩ = .error .nilDereference ∧
    l0.Errorf w0 ⟨"T", [⟨none, 12⟩, ⟨some fA, 3⟩], "hello"⟩ = .error .nilDereference ∧
    lDebug.Debugf w0 ⟨"T", [⟨some fW, 7⟩, ⟨none, 12⟩], "hello"⟩ = .error .nilDereference := by
  decide

/-! ## `path/filepath` -/

theorem filepath.takeWhile_element (comp rest : List Char) (hc : ∀ x ∈ comp, x ≠ '/')
    (hr : filepath.endOrSeparator rest = true) :
    (comp ++ rest).takeWhile (fun x => !filepath.IsPathSeparator x) = comp := by
  induction comp with
  | nil =>
    cases rest with
    | nil => rfl
    | cons r rs =>
      have : filepath.IsPathSeparator r = true := hr
      simp [List.takeWhile, this]
  | cons c cs ih =>
    have hcne : filepath.IsPathSeparator c = false := by
      simpa [filepath.IsPathSeparator] using hc c (List.mem_cons_self _ _)
    have ih1 := ih (fun x hx => hc x (List.mem_cons_of_mem _ hx))
    rw [List.cons_append, List.takeWhile_cons_of_pos (by simp [hcne]), ih1]

theorem filepath.dropWhile_element (comp rest : List Char) (hc : ∀ x ∈ comp, x ≠ '/')
    (hr : filepath.endOrSeparator rest = true) :
    (comp ++ rest).dropWhile (fun x => !filepath.IsPathSeparator x) = rest := by
  induction comp with
  | nil =>
    cases rest with
    | nil => rfl
    | cons r rs =>
      have : filepath.IsPathSeparator r = true := hr
      simp [List.dropWhile, this]
  | cons c cs ih =>
    have hcne : filepath.IsPathSeparator c = false := by
      simpa [filepath.IsPathSeparator] using hc c (List.mem_cons_self _ _)
    have ih1 := ih (fun x hx => hc x (List.mem_cons_of_mem _ hx))
    rw [List.cons_append, List.dropWhile_cons_of_pos (by simp [hcne]), ih1]

theorem filepath.cleanLoop_nil (rooted : Bool) (fuel : Nat) (out : List Char) (dotdot : Nat) :
    filepath.cleanLoop rooted fuel [] out dotdot = out := by
  cases fuel <;> rfl

theorem filepath.cleanLoop_separator (rooted : Bool) (fuel : Nat) (rest out : List Char)
    (dotdot : Nat) :
    filepath.cleanLoop rooted (fuel + 1) ('/' :: rest) out dotdot
      = filepath.cleanLoop rooted fuel rest out dotdot := by
  simp [filepath.cleanLoop, filepath.IsPathSeparator]

theorem filepath.cleanLoop_element (rooted : Bool) (fuel : Nat) (comp rest out : List Char)
    (dotdot : Nat) (hne : comp ≠ []) (hc : ∀ x ∈ comp, x ≠ '/') (hdot : comp ≠ ['.'])
    (hdd : comp ≠ ['.', '.']) (hr : filepath.endOrSeparator rest = true) :
    filepath.cleanLoop rooted (fuel + 1) (comp ++ rest) out dotdot
      = filepath.cleanLoop rooted fuel rest
          ((if (rooted && out.length != 1) || (!rooted && out.length != 0)
            then out ++ ['/'] else out) ++ comp) dotdot := by
  cases comp with
  | nil => exact absurd rfl hne
  | cons c cs =>
    have hcne : filepath.IsPathSeparator c = false := by
      simpa [filepath.IsPathSeparator] using hc c (List.mem_cons_self _ _)
    have h2 : (c == '.' && filepath.endOrSeparator (cs ++ rest)) = false := by
      cases cs with
      | nil =>
        have : c ≠ '.' := fun h => hdot (by rw [h])
        simp [this]
      | cons d ds =>
        have hd : filepath.IsPathSeparator d = false := by
          simpa [filepath.IsPathSeparator] using
            hc d (List.mem_cons_of_mem _ (List.mem_cons_self _ _))
        simp [filepath.endOrSeparator, hd]
    have h3 : (c == '.' && (cs ++ rest).head? == some '.' &&
        filepath.endOrSeparator (cs ++ rest).tail) = false := by
      cases cs with
      | nil =>
        have : c ≠ '.' := fun h => hdot (by rw [h])
        simp [this]
      | cons d ds =>
        cases ds with
        | nil =>
          by_cases hcd : c = '.' ∧ d = '.'
          · exact absurd (by rw [hcd.1, hcd.2]) hdd
          · by_cases hc1 : c = '.'
            · have : d ≠ '.' := fun h => hcd ⟨hc1, h⟩
              simp [this]
            · simp [hc1]
        | cons e es =>
          have he : filepath.IsPathSeparator e = false := by
            simpa [filepath.IsPathSeparator] using
              hc e (List.mem_cons_of_mem _ (List.mem_cons_of_mem _ (List.mem_cons_self _ _)))
          simp [filepath.endOrSeparator, he]
    have htake := filepath.takeWhile_element (c :: cs) rest hc hr
    have hdrop := filepath.dropWhile_element (c :: cs) rest hc hr
    simp only [List.cons_append] at htake hdrop ⊢
    rw [filepath.cleanLoop]
    simp only [hcne, h2, h3, Bool.false_eq_true, if_false, htake, hdrop]

theorem Ordinary.data_ne_nil {s : String} (h : Ordinary s) : s.data ≠ [] := by
  intro hd
  exact h.1 (String.ext hd)

theorem Ordinary.ne_dot {s : String} (h : Ordinary s) : s.data ≠ ['.'] := by
  intro hd
  exact h.2.2.1 (String.ext hd)

theorem Ordinary.ne_dotdot {s : String} (h : Ordinary s) : s.data ≠ ['.', '.'] := by
  intro hd
  exact h.2.2.2 (String.ext hd)

theorem Ordinary.no_separator {s : String} (h : Ordinary s) : ∀ x ∈ s.data, x ≠ '/' := by
  intro x hx hxs
  exact h.2.1 (hxs ▸ hx)

theorem filepath.Clean_join_ordinary (a b : String) (ha : Ordinary a) (hb : Ordinary b) :
    filepath.Clean (a ++ "/" ++ b) = a ++ "/" ++ b := by
  have hdata : (a ++ "/" ++ b).data = a.data ++ '/' :: b.data := by
    simp [String.data_append]
  have hane := ha.data_ne_nil
  have hbne := hb.data_ne_nil
  obtain ⟨c, cs, hacs⟩ := List.exists_cons_of_ne_nil hane
  obtain ⟨d, ds, hbds⟩ := List.exists_cons_of_ne_nil hbne
  have hc : filepath.IsPathSeparator c = false := by
    simpa [filepath.IsPathSeparator] using ha.no_separator c (by rw [hacs]; simp)
  have hloop : filepath.cleanLoop false (cs.length + ds.length + 3)
      (a.data ++ '/' :: b.data) [] 0 = a.data ++ '/' :: b.data := by
    rw [filepath.cleanLoop_element false _ a.data ('/' :: b.data) [] 0 hane ha.no_separator
      ha.ne_dot ha.ne_dotdot rfl]
    rw [filepath.cleanLoop_separator]
    have hb0 : b.data = b.data ++ [] := by simp
    conv_lhs => rw [hb0]
    rw [filepath.cleanLoop_element false _ b.data [] _ 0 hbne hb.no_separator
      hb.ne_dot hb.ne_dotdot rfl, filepath.cleanLoop_nil]
    have : a.length ≠ 0 := by
      show a.data.length ≠ 0
      rw [hacs]; simp
    simp [this]
  have hlen : (c :: (cs ++ '/' :: b.data)).length = cs.length + ds.length + 3 := by
    rw [hbds]; simp; omega
  unfold filepath.Clean
  rw [hdata]
  simp only [hacs, List.cons_append, hc, Bool.false_eq_true, if_false]
  rw [hlen]
  have hloop1 := hloop
  rw [hacs] at hloop1
  simp only [List.cons_append] at hloop1
  rw [hloop1]
  simp only [List.length_cons, Nat.add_one_ne_zero, if_false]
  apply String.ext
  simp [hdata, hacs]

theorem filepath.Clean_dot_join (b : String) (hb : Ordinary b) :
    filepath.Clean ("." ++ "/" ++ b) = b := by
  have hdata : ("." ++ "/" ++ b).data = '.' :: '/' :: b.data := by
    simp [String.data_append]
  have hbne := hb.data_ne_nil
  obtain ⟨d, ds, hbds⟩ := List.exists_cons_of_ne_nil hbne
  have hloop : filepath.cleanLoop false (ds.length + 3) ('.' :: '/' :: b.data) [] 0 = b.data := by
    have h1 : filepath.cleanLoop false (ds.length + 3) ('.' :: '/' :: b.data) [] 0
        = filepath.cleanLoop false (ds.length + 2) ('/' :: b.data) [] 0 := by
      simp [filepath.cleanLoop, filepath.IsPathSeparator, filepath.endOrSeparator]
    rw [h1, filepath.cleanLoop_separator]
    have hb0 : b.data = b.data ++ [] := by simp
    conv_lhs => rw [hb0]
    rw [filepath.cleanLoop_element false _ b.data [] _ 0 hbne hb.no_separator
      hb.ne_dot hb.ne_dotdot rfl, filepath.cleanLoop_nil]
    simp
  have hlen : ('.' :: '/' :: b.data).length = ds.length + 3 := by
    rw [hbds]; simp
  have hsep : filepath.IsPathSeparator '.' = false := by decide
  unfold filepath.Clean
  rw [hdata]
  simp only [hsep, Bool.false_eq_true, if_false]
  rw [hlen, hloop]
  have : b.length ≠ 0 := by
    show b.data.length ≠ 0
    rw [hbds]; simp
  simp [this]

theorem filepath.Join_pair (a b : String) (ha : a ≠ "") :
    filepath.Join [a, b] = filepath.Clean (a ++ "/" ++ b) := by
  simp [filepath.Join, ha, strings.Join]

theorem filepath.Base_ne_empty (path : String) : filepath.Base path ≠ "" := by
  unfold filepath.Base
  split
  · decide
  · simp only
    split
    · decide
    · rename_i h
      intro he
      exact h (congrArg String.data he)

theorem filepath.Base_no_separator (path : String) :
    filepath.Base path = "/" ∨ ∀ x ∈ (filepath.Base path).data, x ≠ '/' := by
  unfold filepath.Base
  split
  · right; decide
  · simp only
    split
    · left; rfl
    · right
      intro x hx hxs
      have := List.mem_rtakeWhile_imp hx
      simp [filepath.IsPathSeparator, hxs] at this

theorem filepath.Base_of_element (dir c : String) (hne : c ≠ "") (hc : ∀ x ∈ c.data, x ≠ '/') :
    filepath.Base (dir ++ "/" ++ c) = c := by
  have hcne : c.data ≠ [] := fun h => hne (String.ext h)
  have hdata : (dir ++ "/" ++ c).data = dir.data ++ '/' :: c.data := by
    simp [String.data_append]
  have hpath : dir ++ "/" ++ c ≠ "" := by
    intro h
    have := congrArg String.data h
    rw [hdata] at this
    simp at this
  obtain ⟨cs, z, hz⟩ : ∃ cs z, c.data = cs ++ [z] := by
    rcases List.eq_nil_or_concat c.data with h | ⟨L, b, h⟩
    · exact absurd h hcne
    · exact ⟨L, b, by simpa using h⟩
  have hzs : ¬ filepath.IsPathSeparator z = true := by
    have := hc z (by rw [hz]; simp)
    simpa [filepath.IsPathSeparator] using this
  have hstrip : (dir.data ++ '/' :: c.data).rdropWhile filepath.IsPathSeparator
      = dir.data ++ '/' :: c.data := by
    have : dir.data ++ '/' :: c.data = (dir.data ++ '/' :: cs) ++ [z] := by rw [hz]; simp
    rw [this]
    exact List.rdropWhile_concat_neg _ _ _ hzs
  have hlast : (dir.data ++ '/' :: c.data).rtakeWhile (fun x => !filepath.IsPathSeparator x)
      = c.data := by
    unfold List.rtakeWhile
    have hrev : (dir.data ++ '/' :: c.data).reverse
        = c.data.reverse ++ '/' :: dir.data.reverse := by simp
    rw [hrev, filepath.takeWhile_element c.data.reverse ('/' :: dir.data.reverse)
      (fun x hx => hc x (List.mem_reverse.1 hx)) rfl]
    simp
  unfold filepath.Base
  simp only [hpath, if_false, hdata, hstrip, hlast, hcne]

/-! ## Display strings of `lookupFunc` -/

/-- C10 (counterexample). For the function "main.main", whose name has no directory part,
`lookupFunc` returns the function name "main.main", while the last path component of the
directory part, "/" and the last path component of the name give "./main.main". -/
theorem lookupFunc_function_not_joined :
    l0.funcs.get fA.entry = none ∧
    l0.lookupFunc (some fA)
      = .ok ({ l0 with funcs := ⟨[(100, ⟨"main.go", "main.main"⟩)]⟩ }, "main.go", "main.main") ∧
    filepath.Base (filepath.Dir fA.name) ++ "/" ++ filepath.Base fA.name = "./main.main" := by
  decide

/-- C10 (amended). On a cache miss `lookupFunc` returns as filename `filepath.Base` of the
source file path (the last element `c` of a path `dir/c`), and as function name
`filepath.Join` of the last path component of the directory part of the name and the last path
component of the name, that is the two joined by "/" and cleaned: the joined text itself when
both components are ordinary elements, and the last component alone when the name has no
directory part (here "github.com/lwithers/lwlog.(*Std).Infof" gives
"lwithers/lwlog.(*Std).Infof"). The cache afterwards maps the entry address to exactly this
pair and is unchanged at every other address. -/
theorem lookupFunc_miss_display (l : Std) (f : Func) (h : l.funcs.get f.entry = none) :
    ∃ l1 filename function,
      l.lookupFunc (some f) = .ok (l1, filename, function) ∧
      filename = filepath.Base f.file ∧
      (∀ dir c : String, f.file = dir ++ "/" ++ c → c ≠ "" → (∀ x ∈ c.data, x ≠ '/') →
        filename = c) ∧
      function
        = filepath.Clean (filepath.Base (filepath.Dir f.name) ++ "/" ++ filepath.Base f.name) ∧
      (Ordinary (filepath.Base (filepath.Dir f.name)) → Ordinary (filepath.Base f.name) →
        function = filepath.Base (filepath.Dir f.name) ++ "/" ++ filepath.Base f.name) ∧
      (filepath.Base (filepath.Dir f.name) = "." → Ordinary (filepath.Base f.name) →
        function = filepath.Base f.name) ∧
      (f.name = "github.com/lwithers/lwlog.(*Std).Infof" →
        function = "lwithers/lwlog.(*Std).Infof") ∧
      l1.funcs.get f.entry = some ⟨filename, function⟩ ∧
      (∀ k, k ≠ f.entry → l1.funcs.get k = l.funcs.get k) := by
  have hjoin : (missDetails f).function
      = filepath.Clean (filepath.Base (filepath.Dir f.name) ++ "/" ++ filepath.Base f.name) :=
    filepath.Join_pair _ _ (filepath.Base_ne_empty _)
  refine ⟨_, _, _, lookupFunc_miss l f h, rfl, ?_, hjoin, ?_, ?_, ?_, GoMap.get_set_self _ _ _,
    fun k hk => GoMap.get_set_ne _ _ _ _ hk⟩
  · intro dir c hfile hne hc
    show filepath.Base f.file = c
    rw [hfile]
    exact filepath.Base_of_element dir c hne hc
  · intro ha hb
    rw [hjoin]
    exact filepath.Clean_join_ordinary _ _ ha hb
  · intro ha hb
    rw [hjoin, ha]
    exact filepath.Clean_dot_join _ hb
  · intro hn
    show filepath.Join [filepath.Base (filepath.Dir f.name), filepath.Base f.name] = _
    rw [hn]
    decide

theorem lookupFunc_miss_display_witness :
    l0.funcs.get stdInfof.entry = none ∧
    ∃ l1 filename function,
      l0.lookupFunc (some stdInfof) = .ok (l1, filename, function) ∧
      filename = filepath.Base stdInfof.file ∧
      (∀ dir c : String, stdInfof.file = dir ++ "/" ++ c → c ≠ "" → (∀ x ∈ c.data, x ≠ '/') →
        filename = c) ∧
      function = filepath.Clean
        (filepath.Base (filepath.Dir stdInfof.name) ++ "/" ++ filepath.Base stdInfof.name) ∧
      (Ordinary (filepath.Base (filepath.Dir stdInfof.name)) →
        Ordinary (filepath.Base stdInfof.name) →
        function
          = filepath.Base (filepath.Dir stdInfof.name) ++ "/" ++ filepath.Base stdInfof.name) ∧
      (filepath.Base (filepath.Dir stdInfof.name) = "." →
        Ordinary (filepath.Base stdInfof.name) → function = filepath.Base stdInfof.name) ∧
      (stdInfof.name = "github.com/lwithers/lwlog.(*Std).Infof" →
        function = "lwithers/lwlog.(*Std).Infof") ∧
      l1.funcs.get stdInfof.entry = some ⟨filename, function⟩ ∧
      (∀ k, k ≠ stdInfof.entry → l1.funcs.get k = l0.funcs.get k) :=
  ⟨by decide, lookupFunc_miss_display l0 stdInfof (by decide)⟩

/-! ## Faithfulness of the loop embeddings -/

/-- One iteration of the loop of `logLine`, written with `Frames.Next`. -/
theorem selectFrame_step (c : LoggingFunctions) (frame : Frame) (rest : List Frame) :
    selectFrame c frame true rest
      = (IsLoggingFunction c frame.Func).bind (fun r =>
          if r.2 then
            selectFrame r.1 (Frames.Next rest).1.1 (Frames.Next rest).1.2 (Frames.Next rest).2
          else pure (r.1, frame)) := by
  cases rest with
  | nil =>
    simp only [selectFrame, bind, Frames.Next]
  | cons f fs =>
    simp only [selectFrame, bind, Frames.Next]

/-- The loop of `Clean` never runs out of fuel: once the fuel covers the unread rest, more fuel
does not change the result. -/
theorem filepath.cleanLoop_fuel (rooted : Bool) :
    ∀ (fuel : Nat) (path out : List Char) (dotdot : Nat), path.length ≤ fuel →
      filepath.cleanLoop rooted (fuel + 1) path out dotdot
        = filepath.cleanLoop rooted fuel path out dotdot := by
  intro fuel
  induction fuel with
  | zero =>
    intro path out dotdot hlen
    have : path = [] := List.length_eq_zero.1 (Nat.le_zero.1 hlen)
    subst this
    rfl
  | succ n ih =>
    intro path out dotdot hlen
    cases path with
    | nil => rfl
    | cons c rest =>
      have hrest : rest.length ≤ n := by simpa using hlen
      have htail : rest.tail.length ≤ n := by
        have := List.length_tail rest
        omega
      have hdrop : (rest.dropWhile (fun x => !filepath.IsPathSeparator x)).length ≤ n :=
        le_trans (List.dropWhile_sublist _).length_le hrest
      rw [filepath.cleanLoop, filepath.cleanLoop]
      by_cases h1 : filepath.IsPathSeparator c = true
      · simp only [h1, if_true]
        exact ih rest out dotdot hrest
      · have hdw : (c :: rest).dropWhile (fun x => !filepath.IsPathSeparator x)
            = rest.dropWhile (fun x => !filepath.IsPathSeparator x) :=
          List.dropWhile_cons_of_pos (by simpa using h1)
        simp only [h1, if_false, hdw]
        by_cases h2 : (c == '.' && filepath.endOrSeparator rest) = true
        · simp only [h2, if_true]
          exact ih rest out dotdot hrest
        · simp only [h2, if_false]
          by_cases h3 : (c == '.' && rest.head? == some '.' &&
              filepath.endOrSeparator rest.tail) = true
          · simp only [h3, if_true]
            by_cases h4 : dotdot < out.length
            · simp only [h4, if_true]
              exact ih _ _ _ htail
            · simp only [h4, if_false]
              by_cases h5 : (!rooted) = true
              · simp only [h5, if_true]
                exact ih _ _ _ htail
              · simp only [h5, if_false]
                exact ih _ _ _ htail
          · simp only [h3, if_false]
            exact ih _ _ _ hdrop

/-! ## Claims broken by frames without a function record -/

theorem lookupFunc_nil (l : Std) : l.lookupFunc none = .error .nilDereference := rfl

theorem IsLoggingFunction_nil (c : LoggingFunctions) :
    IsLoggingFunction c none = .error .nilDereference := rfl

theorem callerFrame_nil_head (c : LoggingFunctions) (line : Nat) (g : Frame)
    (rest : List Frame) :
    callerFrame c (⟨none, line⟩ :: g :: rest) = .error .nilDereference := by
  simp [callerFrame, Frames.Next, selectFrame, IsLoggingFunction_nil, bind, Except.bind]

theorem callerFrame_nil_single (c : LoggingFunctions) (line : Nat) :
    callerFrame c [⟨none, line⟩] = .ok (c, ⟨none, line⟩) := by
  simp [callerFrame, Frames.Next, selectFrame, pure, Except.pure]

theorem logLine_nil_head (l : Std) (world : World) (now msg : String) (line : Nat)
    (rest : List Frame) (w : Nat) (level : String) :
    l.logLine world ⟨now, ⟨none, line⟩ :: rest, msg⟩ w level = .error .nilDereference := by
  cases rest with
  | nil =>
    simp [Std.logLine, callerFrame_nil_single, lookupFunc_nil, bind, Except.bind]
  | cons g rest =>
    simp [Std.logLine, callerFrame_nil_head, bind, Except.bind]

/-- C1 (failing input). When the innermost captured frame has a nil `Func` and more frames
follow, the frame selection of `logLine` does not select any frame: `IsLoggingFunction`
dereferences the nil `Func` and the selection panics, in every cache state. On the capture of a
nil-`Func` frame followed by the frame of "main.main", the frame the claim asks for is the first
one (its name, the empty name, fails the suffix test). -/
theorem callerFrame_panics_on_nil_Func :
    (∀ (c : LoggingFunctions) (line : Nat) (g : Frame) (rest : List Frame),
      callerFrame c (⟨none, line⟩ :: g :: rest) = .error .nilDereference) ∧
    callerFrame none [⟨none, 12⟩, ⟨some fA, 3⟩] = .error .nilDereference ∧
    expectedFrame [⟨none, 12⟩, ⟨some fA, 3⟩] = some ⟨none, 12⟩ :=
  ⟨callerFrame_nil_head, by decide, by decide⟩

/-- C8 (failing input). With `Debug` false `Debugf` changes nothing, as claimed; with `Debug`
true and a capture whose innermost frame has a nil `Func`, `Debugf` panics and produces no line
at all, for every logger, state, timestamp and message. -/
theorem Debugf_panics_on_nil_Func :
    (∀ (l : Std) (world : World) (call : Call),
      ({ l with Debug := false } : Std).Debugf world call
        = .ok (world, { l with Debug := false })) ∧
    (∀ (l : Std) (world : World) (now msg : String) (line : Nat) (rest : List Frame),
      ({ l with Debug := true } : Std).Debugf world ⟨now, ⟨none, line⟩ :: rest, msg⟩
        = .error .nilDereference) ∧
    lDebug.Debugf w0 ⟨"T", [⟨none, 12⟩, ⟨some fA, 3⟩], "hello"⟩ = .error .nilDereference := by
  refine ⟨?_, ?_, by decide⟩
  · intro l world call
    simp [Std.Debugf, pure, Except.pure]
  · intro l world now msg line rest
    simp [Std.Debugf, logLine_nil_head]

/-- C9 (failing input). With distinct writers and a capture whose innermost frame has a nil
`Func`, `Errorf` and `Infof` panic and perform no `Write` on either writer, for every logger,
state, timestamp and message. -/
theorem routing_panics_on_nil_Func :
    (∀ (l : Std) (world : World) (now msg : String) (line : Nat) (rest : List Frame),
      l.Errorf world ⟨now, ⟨none, line⟩ :: rest, msg⟩ = .error .nilDereference ∧
      l.Infof world ⟨now, ⟨none, line⟩ :: rest, msg⟩ = .error .nilDereference) ∧
    l0.out ≠ l0.err ∧
    l0.Errorf w0 ⟨"T", [⟨none, 12⟩, ⟨some fA, 3⟩], "hello"⟩ = .error .nilDereference ∧
    l0.Infof w0 ⟨"T", [⟨none, 12⟩, ⟨some fA, 3⟩], "hello"⟩ = .error .nilDereference := by
  refine ⟨?_, by decide, by decide, by decide⟩
  intro l world now msg line rest
  exact ⟨logLine_nil_head l world now msg line rest l.err "error",
    logLine_nil_head l world now msg line rest l.out "info "⟩

end Lwlog
